import Mathlib

/-!
Verification of the settlement engine of the chousei-warikan repository.

The definitions below are a shallow embedding of the server code:

* `calculateSettlements` and its stages embed the function of the same name
  in `src/server/routes.ts` (lines 439-605).
* `dbGetEventParticipants` embeds `DatabaseStorage.getEventParticipants`
  (`src/server/storage.ts`, lines 753-787), the implementation behind the
  exported `storage` object; `memGetEventParticipants` embeds
  `MemStorage.getEventParticipants` (lines 356-417).
* `createExpense` embeds the handler of `POST /api/events/:id/expenses`
  (routes.ts lines 233-285) and `addParticipant` the handler of
  `POST /api/events/:id/participants` (routes.ts lines 288-387).

Amounts are modelled as `Int`: the route stores `String(amount)` and the
engine reads it back with `parseInt(expense.amount, 10)`, so the integer
value is the quantity every computation uses.  JavaScript's
`Math.floor(amount / n)` on integers is exact floor division, embedded as
`Int.fdiv`.  JavaScript `Set` iteration order is insertion order, embedded
by `insertName` which appends a name only when it is new.  JavaScript's
`Array.prototype.sort` with comparator `(a, b) => b.amount - a.amount` is a
stable descending sort, embedded as the stable insertion sort
`sortByAmountDesc` (the result of a stable sort is determined uniquely by
the comparator, so any stable implementation is a faithful embedding).
-/

/-- An expense record as the settlement engine sees it: payer, description,
parsed integer amount, materialized member snapshot, and the
`isSharedWithAll` flag. -/
structure Expense where
  payerName : String
  description : String
  amount : Int
  participants : List String
  isSharedWithAll : Bool
deriving DecidableEq, Repr

/-- A settlement instruction `{from, to, amount}`; `src` embeds the source
field `from` (a Lean keyword) and `dst` the field `to`. -/
structure Settlement where
  src : String
  dst : String
  amount : Int
deriving DecidableEq, Repr

/-- The per-event server state the modelled routes touch: creator name,
whether a date has been finalized (`event.selectedDate` truthiness), the
persisted `event.participants` column, attendance (poll respondent) names,
and the expense ledger. -/
structure EventState where
  creatorName : String
  selectedDate : Bool
  participants : List String
  attendances : List String
  expenses : List Expense
deriving DecidableEq, Repr

/-- Error classes of the modelled routes: zod validation failures (HTTP
400 on malformed input), the finalized-date precondition (HTTP 400), and
the duplicate-participant rejection. -/
inductive ApiError where
  | validation
  | precondition
  | duplicate
deriving DecidableEq, Repr

/-- Decidable equality of `Except` results, so that route outcomes can be
checked by evaluation. -/
instance {α β : Type} [DecidableEq α] [DecidableEq β] : DecidableEq (Except α β)
  | .error a, .error b =>
    if h : a = b then .isTrue (congrArg Except.error h)
    else .isFalse (fun hh => h (Except.error.inj hh))
  | .error _, .ok _ => .isFalse (fun hh => Except.noConfusion hh)
  | .ok _, .error _ => .isFalse (fun hh => Except.noConfusion hh)
  | .ok a, .ok b =>
    if h : a = b then .isTrue (congrArg Except.ok h)
    else .isFalse (fun hh => h (Except.ok.inj hh))

/-- Insertion into a JavaScript `Set` represented as its insertion-ordered
element list: append the name only when it is not yet present. -/
def insertName (acc : List String) (n : String) : List String :=
  if n ∈ acc then acc else acc ++ [n]

/-- Step of the participant-universe collection of `calculateSettlements`
(routes.ts 449-457): add the expense's payer, then each member of its
`participants` array. -/
def addNames (acc : List String) (e : Expense) : List String :=
  e.participants.foldl insertName (insertName acc e.payerName)

/-- The participant universe `allCurrentParticipants` of
`calculateSettlements` (routes.ts 446-459): every payer and every snapshot
member over all expenses, in first-appearance order. -/
def collectParticipants (es : List Expense) : List String :=
  es.foldl addNames []

/-- The `splitParticipants` selection of `calculateSettlements`
(routes.ts 481-497): the full universe when `isSharedWithAll`, the
explicit member list when non-empty, and the full universe again in the
legacy backward-compatibility branch. -/
def splitGroupFor (es : List Expense) (e : Expense) : List String :=
  if e.isSharedWithAll then collectParticipants es
  else if e.participants ≠ [] then e.participants
  else collectParticipants es

/-- Share assignment of one expense (routes.ts 501-518):
`perPersonAmount = Math.floor(amount / n)`, `remainder = amount - per * n`,
and each member at index `i` owes one extra unit when `i < remainder`. -/
def expenseShares (amount : Int) (g : List String) : List (String × Int) :=
  let perPersonAmount := Int.fdiv amount (g.length : Int)
  let remainder := amount - perPersonAmount * (g.length : Int)
  g.enum.map (fun p => (p.2, perPersonAmount + if (p.1 : Int) < remainder then 1 else 0))

/-- Total paid by participant `p`: the `balanceSheet[p].paid` accumulation
(routes.ts 478). -/
def paidOf (es : List Expense) (p : String) : Int :=
  (es.map (fun e => if e.payerName = p then e.amount else 0)).sum

/-- Sum of the second components of a list of name-amount pairs. -/
def sndSum (l : List (String × Int)) : Int :=
  (l.map Prod.snd).sum

/-- Sum of the amounts attached to name `n` in a name-amount pair list. -/
def nameSum (n : String) (l : List (String × Int)) : Int :=
  (l.map (fun q => if q.1 = n then q.2 else 0)).sum

/-- Contribution of one expense to `balanceSheet[p].shouldPay`
(routes.ts 508-518). -/
def shareOf (es : List Expense) (e : Expense) (p : String) : Int :=
  nameSum p (expenseShares e.amount (splitGroupFor es e))

/-- Total owed by participant `p`: the `balanceSheet[p].shouldPay`
accumulation over all expenses. -/
def shouldPayOf (es : List Expense) (p : String) : Int :=
  (es.map (fun e => shareOf es e p)).sum

/-- Net balance `paid - shouldPay` of participant `p` (routes.ts 530). -/
def balanceOf (es : List Expense) (p : String) : Int :=
  paidOf es p - shouldPayOf es p

/-- The `finalBalances` array (routes.ts 526-534): one `(name, balance)`
entry per universe member, in universe order. -/
def finalBalances (es : List Expense) : List (String × Int) :=
  (collectParticipants es).map (fun n => (n, balanceOf es n))

/-- Stable descending insertion of one entry: keep moving right while the
current head's amount is at least as large, so equal amounts keep their
original relative order, as JavaScript's stable sort does. -/
def insertDesc (x : String × Int) : List (String × Int) → List (String × Int)
  | [] => [x]
  | y :: ys => if x.2 < y.2 then y :: insertDesc x ys else x :: y :: ys

/-- Stable sort by descending amount, the effect of
`sort((a, b) => b.amount - a.amount)` (routes.ts 539, 544). -/
def sortByAmountDesc : List (String × Int) → List (String × Int)
  | [] => []
  | x :: xs => insertDesc x (sortByAmountDesc xs)

/-- The `receivers` list (routes.ts 537-539): positive balances, sorted by
descending amount. -/
def receiversOf (balances : List (String × Int)) : List (String × Int) :=
  sortByAmountDesc (balances.filter (fun p => 0 < p.2))

/-- The `payers` list (routes.ts 541-544): negative balances, mapped to
their absolute values, sorted by descending amount. -/
def payersOf (balances : List (String × Int)) : List (String × Int) :=
  sortByAmountDesc ((balances.filter (fun p => p.2 < 0)).map (fun p => (p.1, |p.2|)))

/-- The `totalReceive` sum (routes.ts 552). -/
def totalReceive (balances : List (String × Int)) : Int :=
  sndSum (receiversOf balances)

/-- The `totalPay` sum (routes.ts 553). -/
def totalPay (balances : List (String × Int)) : Int :=
  sndSum (payersOf balances)

/-- The advisory mismatch check (routes.ts 557-560): the code only prints
a console warning when `Math.abs(totalReceive - totalPay) > 1`; it has no
error path and continues unconditionally. -/
def settlementWarning (balances : List (String × Int)) : Bool :=
  1 < |totalReceive balances - totalPay balances|

/-- The greedy matching loop (routes.ts 570-600), fuelled: take the head
payer and head receiver, transfer `min` of the two remaining amounts, drop
a side when its remainder reaches zero, and break when the transfer would
not be positive. -/
def greedyAux : Nat → List (String × Int) → List (String × Int) → List Settlement
  | 0, _, _ => []
  | _ + 1, [], _ => []
  | _ + 1, _ :: _, [] => []
  | fuel + 1, (pn, pa) :: ps, (rn, ra) :: rs =>
    let pay := min pa ra
    if 0 < pay then
      let ps1 := if pa - pay ≤ 0 then ps else (pn, pa - pay) :: ps
      let rs1 := if ra - pay ≤ 0 then rs else (rn, ra - pay) :: rs
      ⟨pn, rn, pay⟩ :: greedyAux fuel ps1 rs1
    else []

/-- Steps 5-6 of the engine, from the final balances to the emitted
settlement list.  Each loop iteration of the source removes at least one
entry from one of the two lists, so the sum of the lengths is enough
fuel. -/
def settleBalances (balances : List (String × Int)) : List Settlement :=
  greedyAux ((payersOf balances).length + (receiversOf balances).length)
    (payersOf balances) (receiversOf balances)

/-- The settlement engine `calculateSettlements` (routes.ts 439-605):
empty output on an empty ledger, otherwise the greedy settlement of the
final balances. -/
def calculateSettlements (es : List Expense) : List Settlement :=
  if es = [] then [] else settleBalances (finalBalances es)

/-- Sum of the amounts of a settlement list. -/
def amountSum (l : List Settlement) : Int :=
  (l.map Settlement.amount).sum

/-- Total sent by participant `n` over a settlement list. -/
def sentBy (n : String) (l : List Settlement) : Int :=
  (l.map (fun t => if t.src = n then t.amount else 0)).sum

/-- Total received by participant `n` over a settlement list. -/
def receivedBy (n : String) (l : List Settlement) : Int :=
  (l.map (fun t => if t.dst = n then t.amount else 0)).sum

/-- Participant resolution of the exported storage,
`DatabaseStorage.getEventParticipants` (storage.ts 753-787): expense
payers (when truthy), then every expense snapshot member, then attendance
names, then the creator (when truthy).  The event's persisted
`participants` column is not consulted and nothing is persisted. -/
def dbGetEventParticipants (s : EventState) : List String :=
  let l1 := s.expenses.foldl
    (fun acc e => if e.payerName ≠ "" then insertName acc e.payerName else acc) []
  let l2 := s.expenses.foldl (fun acc e => e.participants.foldl insertName acc) l1
  let l3 := s.attendances.foldl insertName l2
  if s.creatorName ≠ "" then insertName l3 s.creatorName else l3

/-- Participant resolution of `MemStorage.getEventParticipants`
(storage.ts 356-417): creator (when truthy), then the persisted
participant list, then truthy attendance names, then each expense's truthy
payer and truthy snapshot members. -/
def memGetEventParticipants (s : EventState) : List String :=
  let l1 := if s.creatorName ≠ "" then insertName [] s.creatorName else []
  let l2 := s.participants.foldl insertName l1
  let l3 := s.attendances.foldl
    (fun acc n => if n ≠ "" then insertName acc n else acc) l2
  s.expenses.foldl
    (fun acc e =>
      let acc1 := if e.payerName ≠ "" then insertName acc e.payerName else acc
      e.participants.foldl (fun b n => if n ≠ "" then insertName b n else b) acc1)
    l3

/-- Change detection of `MemStorage.getEventParticipants`
(storage.ts 403-407) deciding whether the recomputed list is written back
to the event. -/
def memResolveChanged (s : EventState) (l : List String) : Bool :=
  s.participants.isEmpty || l.length ≠ s.participants.length
    || l.any (fun p => ¬ (p ∈ s.participants))

/-- Full effect of `MemStorage.getEventParticipants`: the returned list
together with the event state after the write-back side effect
(storage.ts 409-416). -/
def memResolve (s : EventState) : List String × EventState :=
  let l := memGetEventParticipants s
  (l, if memResolveChanged s l then { s with participants := l } else s)

/-- The `POST /api/events/:id/expenses` handler (routes.ts 233-285): zod
validation of payer, description and positive amount, the finalized-date
gate, then creation; an absent or empty member array (indistinguishable
after zod's `.default([])`) turns on `isSharedWithAll` and snapshots the
current resolved participants. -/
def createExpense (s : EventState) (payerName description : String)
    (amount : Int) (participants : List String) :
    Except ApiError (EventState × Expense) :=
  if payerName = "" then .error .validation
  else if description = "" then .error .validation
  else if amount ≤ 0 then .error .validation
  else if ¬ s.selectedDate then .error .precondition
  else
    let shared := participants = []
    let parts := if shared then dbGetEventParticipants s else participants
    let e : Expense := ⟨payerName, description, amount, parts, shared⟩
    .ok ({ s with expenses := s.expenses ++ [e] }, e)

/-- The `POST /api/events/:id/participants` handler (routes.ts 288-387):
zod name validation, the finalized-date gate, duplicate rejection against
the resolved list, then the re-snapshot of every `isSharedWithAll` expense
and of every legacy expense (no flag, empty member list) to the grown
list.  The new name itself is persisted only inside those snapshots. -/
def addParticipant (s : EventState) (name : String) :
    Except ApiError EventState :=
  if name = "" then .error .validation
  else if ¬ s.selectedDate then .error .precondition
  else
    let current := dbGetEventParticipants s
    if name ∈ current then .error .duplicate
    else
      let newParticipantsList := current ++ [name]
      let newExpenses := s.expenses.map (fun e =>
        if e.isSharedWithAll then { e with participants := newParticipantsList }
        else if e.participants = [] then
          { e with participants := newParticipantsList, isSharedWithAll := true }
        else e)
      .ok { s with expenses := newExpenses }

/-- Written from the spec's words (section 4.3 step 2, sources of claim
C2), for comparison with the source-derived `expenseShares`: every member
of the split group gets the base share `floor(amount / n)`, and the first
`remainder` members in the stable member order get one extra unit. -/
def specShares (amount : Int) (g : List String) : List (String × Int) :=
  let base := Int.fdiv amount (g.length : Int)
  let remainder := amount - base * (g.length : Int)
  g.enum.map (fun p => (p.2, if (p.1 : Int) < remainder then base + 1 else base))

/-! ### Concrete states and ledgers used by the claim instances -/

/-- Concrete one-expense ledger used to instantiate the universally
quantified claims: A paid 100, split explicitly between A and B. -/
def exampleLedger : List Expense :=
  [⟨"A", "lunch", 100, ["A", "B"], false⟩]

/-- Initial state of the section 8.6 scenario: event created by A with a
finalized date, B has answered the poll, no expenses yet. -/
def growthStart : EventState := ⟨"A", true, [], ["B"], []⟩

/-- The `SharedWithAll` expense of 100 paid by A, with the member
snapshot the route materializes at creation time. -/
def sharedDinner : Expense := ⟨"A", "dinner", 100, ["B", "A"], true⟩

/-- State after recording the shared expense. -/
def growthMid : EventState := ⟨"A", true, [], ["B"], [sharedDinner]⟩

/-- The shared expense after participant C is added: its snapshot has
been re-set to the grown participant list. -/
def grownDinner : Expense := ⟨"A", "dinner", 100, ["A", "B", "C"], true⟩

/-- State after the add-participant operation for C. -/
def growthEnd : EventState := ⟨"A", true, [], ["B"], [grownDinner]⟩

/-- Event state refuting C4: the `SharedWithAll` expense was created when
A was alone, then poll respondent B joined; B is in the resolved
participant set at settlement time but in no expense. -/
def pollLateState : EventState :=
  ⟨"A", true, [], ["B"], [⟨"A", "taxi", 100, ["A"], true⟩]⟩

/-- Event with a finalized date and no data beyond its creator, used to
exercise the create-expense route. -/
def readyEvent : EventState := ⟨"A", true, [], [], []⟩

/-- First expense of the C6 counterexample: explicit split of 2 between
A and B, paid by A. -/
def swapE1 : Expense := ⟨"A", "d1", 2, ["A", "B"], false⟩

/-- Second expense of the C6 counterexample: amount 1 shared with all,
paid by B; the odd unit goes to whoever enters the universe first. -/
def swapE2 : Expense := ⟨"B", "d2", 1, [], true⟩

/-- First expense of the C6 witness: explicit even split. -/
def divE1 : Expense := ⟨"A", "d1", 2, ["A", "B"], false⟩

/-- Second expense of the C6 witness: shared by all, evenly divided. -/
def divE2 : Expense := ⟨"B", "d2", 2, [], true⟩

/-- Event state refuting C7 for the exported storage: the persisted list
contains X, who is neither creator nor attendee nor referenced by any
expense. -/
def straggler : EventState := ⟨"A", true, ["X"], [], []⟩

/-! ### Basic lemmas about the participant universe -/

theorem mem_insertName {acc : List String} {n x : String} :
    x ∈ insertName acc n ↔ x ∈ acc ∨ x = n := by
  unfold insertName
  split
  · next h =>
    constructor
    · exact fun hx => Or.inl hx
    · rintro (hx | rfl)
      · exact hx
      · exact h
  · simp

theorem insertName_nodup {acc : List String} {n : String} (h : acc.Nodup) :
    (insertName acc n).Nodup := by
  unfold insertName
  split
  · exact h
  · next hn =>
    simpa [List.nodup_append] using ⟨h, fun hx => hn hx⟩

theorem mem_foldl_insertName (l : List String) (acc : List String) (x : String) :
    x ∈ l.foldl insertName acc ↔ x ∈ acc ∨ x ∈ l := by
  induction l generalizing acc with
  | nil => simp
  | cons a l ih =>
    simp only [List.foldl_cons, ih, mem_insertName, List.mem_cons]
    tauto

theorem foldl_insertName_nodup (l : List String) {acc : List String}
    (h : acc.Nodup) : (l.foldl insertName acc).Nodup := by
  induction l generalizing acc with
  | nil => exact h
  | cons a l ih => exact ih (insertName_nodup h)

theorem mem_addNames {acc : List String} {e : Expense} {x : String} :
    x ∈ addNames acc e ↔ x ∈ acc ∨ x = e.payerName ∨ x ∈ e.participants := by
  unfold addNames
  rw [mem_foldl_insertName, mem_insertName]
  tauto

theorem addNames_nodup {acc : List String} {e : Expense} (h : acc.Nodup) :
    (addNames acc e).Nodup :=
  foldl_insertName_nodup _ (insertName_nodup h)

theorem mem_foldl_addNames (es : List Expense) (acc : List String) (x : String) :
    x ∈ es.foldl addNames acc ↔
      x ∈ acc ∨ ∃ e ∈ es, x = e.payerName ∨ x ∈ e.participants := by
  induction es generalizing acc with
  | nil => simp
  | cons a es ih =>
    simp only [List.foldl_cons, ih, mem_addNames, List.mem_cons]
    constructor
    · rintro ((h | h | h) | ⟨e, he, hx⟩)
      · exact Or.inl h
      · exact Or.inr ⟨a, Or.inl rfl, Or.inl h⟩
      · exact Or.inr ⟨a, Or.inl rfl, Or.inr h⟩
      · exact Or.inr ⟨e, Or.inr he, hx⟩
    · rintro (h | ⟨e, (rfl | he), hx⟩)
      · exact Or.inl (Or.inl h)
      · exact Or.inl (Or.inr hx)
      · exact Or.inr ⟨e, he, hx⟩

theorem mem_collectParticipants {es : List Expense} {x : String} :
    x ∈ collectParticipants es ↔
      ∃ e ∈ es, x = e.payerName ∨ x ∈ e.participants := by
  unfold collectParticipants
  rw [mem_foldl_addNames]
  simp

theorem collectParticipants_nodup (es : List Expense) :
    (collectParticipants es).Nodup := by
  unfold collectParticipants
  induction es with
  | nil => simp
  | cons a es _ =>
    have : ∀ (l : List Expense) (acc : List String), acc.Nodup →
        (l.foldl addNames acc).Nodup := by
      intro l
      induction l with
      | nil => exact fun acc h => h
      | cons b l ihl => exact fun acc h => ihl _ (addNames_nodup h)
    exact this _ _ List.nodup_nil

theorem payer_mem_collectParticipants {es : List Expense} {e : Expense}
    (he : e ∈ es) : e.payerName ∈ collectParticipants es :=
  mem_collectParticipants.mpr ⟨e, he, Or.inl rfl⟩

theorem participant_mem_collectParticipants {es : List Expense} {e : Expense}
    (he : e ∈ es) {x : String} (hx : x ∈ e.participants) :
    x ∈ collectParticipants es :=
  mem_collectParticipants.mpr ⟨e, he, Or.inr hx⟩

theorem splitGroupFor_subset {es : List Expense} {e : Expense} (he : e ∈ es) :
    ∀ x ∈ splitGroupFor es e, x ∈ collectParticipants es := by
  intro x hx
  unfold splitGroupFor at hx
  split at hx
  · exact hx
  · split at hx
    · exact participant_mem_collectParticipants he hx
    · exact hx

theorem splitGroupFor_ne_nil {es : List Expense} {e : Expense} (he : e ∈ es) :
    splitGroupFor es e ≠ [] := by
  have hne : collectParticipants es ≠ [] := by
    intro h
    have := payer_mem_collectParticipants he
    rw [h] at this
    exact absurd this (List.not_mem_nil _)
  unfold splitGroupFor
  split
  · exact hne
  · split
    · next h => exact h
    · exact hne

/-! ### Sum and sort lemmas -/

theorem sndSum_nil : sndSum [] = 0 := rfl

theorem sndSum_cons (x : String × Int) (l : List (String × Int)) :
    sndSum (x :: l) = x.2 + sndSum l := by
  simp [sndSum]

theorem nameSum_nil (n : String) : nameSum n [] = 0 := rfl

theorem nameSum_cons (n : String) (x : String × Int) (l : List (String × Int)) :
    nameSum n (x :: l) = (if x.1 = n then x.2 else 0) + nameSum n l := by
  simp [nameSum]

theorem amountSum_cons (t : Settlement) (l : List Settlement) :
    amountSum (t :: l) = t.amount + amountSum l := by
  simp [amountSum]

theorem sentBy_cons (n : String) (t : Settlement) (l : List Settlement) :
    sentBy n (t :: l) = (if t.src = n then t.amount else 0) + sentBy n l := by
  simp [sentBy]

theorem receivedBy_cons (n : String) (t : Settlement) (l : List Settlement) :
    receivedBy n (t :: l) = (if t.dst = n then t.amount else 0) + receivedBy n l := by
  simp [receivedBy]

theorem sndSum_pos {l : List (String × Int)} (hne : l ≠ [])
    (hpos : ∀ x ∈ l, 0 < x.2) : 0 < sndSum l := by
  induction l with
  | nil => exact absurd rfl hne
  | cons a l ih =>
    rw [sndSum_cons]
    rcases List.eq_nil_or_concat l with h | _
    · subst h
      simpa [sndSum_nil] using hpos a (List.mem_cons_self a [])
    · have h1 : 0 < a.2 := hpos a (List.mem_cons_self a l)
      have h2 : 0 ≤ sndSum l := by
        by_cases hl : l = []
        · simp [hl, sndSum_nil]
        · exact le_of_lt (ih hl (fun x hx => hpos x (List.mem_cons_of_mem a hx)))
      omega

theorem eq_nil_of_sndSum_eq_zero {l : List (String × Int)}
    (hpos : ∀ x ∈ l, 0 < x.2) (h : sndSum l = 0) : l = [] := by
  by_contra hne
  have := sndSum_pos hne hpos
  omega

theorem sndSum_perm {l1 l2 : List (String × Int)} (h : l1.Perm l2) :
    sndSum l1 = sndSum l2 :=
  (h.map Prod.snd).sum_eq

theorem nameSum_perm (n : String) {l1 l2 : List (String × Int)} (h : l1.Perm l2) :
    nameSum n l1 = nameSum n l2 := by
  unfold nameSum
  exact (h.map _).sum_eq

theorem insertDesc_perm (x : String × Int) (l : List (String × Int)) :
    (insertDesc x l).Perm (x :: l) := by
  induction l with
  | nil => simp [insertDesc]
  | cons y ys ih =>
    unfold insertDesc
    split
    · exact ((ih.cons y).trans (List.Perm.swap x y ys))
    · exact List.Perm.refl _

theorem sortByAmountDesc_perm (l : List (String × Int)) :
    (sortByAmountDesc l).Perm l := by
  induction l with
  | nil => exact List.Perm.refl _
  | cons x xs ih =>
    unfold sortByAmountDesc
    exact (insertDesc_perm x (sortByAmountDesc xs)).trans (ih.cons x)

theorem list_sum_comm {α β : Type} (l1 : List α) (l2 : List β) (f : α → β → Int) :
    ((l1.map (fun a => ((l2.map (f a)).sum))).sum) =
      ((l2.map (fun b => ((l1.map (fun a => f a b)).sum))).sum) := by
  induction l1 with
  | nil => simp
  | cons a l1 ih =>
    simp only [List.map_cons, List.sum_cons, ih, ← List.sum_map_add]

theorem sum_if_eq_left {l : List String} (x : String) (c : Int)
    (hnd : l.Nodup) (hx : x ∈ l) :
    (l.map (fun n => if x = n then c else 0)).sum = c := by
  induction l with
  | nil => exact absurd hx (List.not_mem_nil x)
  | cons a l ih =>
    simp only [List.map_cons, List.sum_cons]
    rcases List.mem_cons.mp hx with rfl | hmem
    · rw [if_pos rfl]
      have hden : (l.map (fun n => if x = n then c else 0)) =
          l.map (fun _ => (0 : Int)) := by
        apply List.map_congr_left
        intro b hb
        rw [if_neg]
        intro hxb
        exact (List.nodup_cons.mp hnd).1 (hxb ▸ hb)
      rw [hden]
      simp
    · rw [if_neg, ih (List.nodup_cons.mp hnd).2 hmem]
      · omega
      · intro h
        exact (List.nodup_cons.mp hnd).1 (h ▸ hmem)

theorem sum_if_eq_right {l : List String} (x : String) (f : String → Int)
    (hnd : l.Nodup) (hx : x ∈ l) :
    (l.map (fun n => if n = x then f n else 0)).sum = f x := by
  have := sum_if_eq_left (l := l) x (f x) hnd hx
  rw [← this]
  congr 1
  apply List.map_congr_left
  intro b _
  by_cases h : b = x
  · subst h
    simp
  · rw [if_neg h, if_neg (fun hh => h hh.symm)]

/-! ### Lemmas about the per-expense share assignment -/

theorem expenseShares_fst (a : Int) (g : List String) :
    (expenseShares a g).map Prod.fst = g := by
  unfold expenseShares
  rw [List.map_map]
  have : (Prod.fst ∘ fun p : Nat × String =>
      (p.2, a.fdiv (g.length : Int) +
        if (p.1 : Int) < a - a.fdiv (g.length : Int) * (g.length : Int) then 1 else 0)) =
      Prod.snd := rfl
  rw [this, List.enum_map_snd]

theorem mem_fst_of_mem_expenseShares {a : Int} {g : List String}
    {q : String × Int} (hq : q ∈ expenseShares a g) : q.1 ∈ g := by
  have : q.1 ∈ (expenseShares a g).map Prod.fst := List.mem_map_of_mem Prod.fst hq
  rwa [expenseShares_fst] at this

theorem expenseShares_snd (a : Int) (g : List String) :
    (expenseShares a g).map Prod.snd =
      (List.range g.length).map (fun i : Nat =>
        a.fdiv (g.length : Int) +
          if (i : Int) < a - a.fdiv (g.length : Int) * (g.length : Int) then 1 else 0) := by
  unfold expenseShares
  rw [List.map_map, ← List.enum_map_fst g, List.map_map]
  rfl

theorem sum_range_if_lt (n : Nat) (r : Int) (hr : 0 ≤ r) :
    ((List.range n).map (fun i : Nat => if (i : Int) < r then (1 : Int) else 0)).sum =
      min (n : Int) r := by
  induction n with
  | zero => simp [min_eq_left hr]
  | succ n ih =>
    rw [List.range_succ, List.map_append, List.sum_append, ih]
    simp only [List.map_cons, List.map_nil, List.sum_cons, List.sum_nil]
    by_cases h : (n : Int) < r
    · rw [if_pos h]
      push_cast
      omega
    · rw [if_neg h]
      push_cast
      omega

theorem fdiv_remainder_bounds (a : Int) {n : Nat} (hn : 0 < n) :
    0 ≤ a - a.fdiv (n : Int) * (n : Int) ∧
      a - a.fdiv (n : Int) * (n : Int) < (n : Int) := by
  have hn0 : (0 : Int) < (n : Int) := by exact_mod_cast hn
  rw [Int.fdiv_eq_ediv a (le_of_lt hn0)]
  have hkey : a - a / (n : Int) * (n : Int) = a % (n : Int) := by
    rw [Int.emod_def]
    ring
  rw [hkey]
  exact ⟨Int.emod_nonneg a (ne_of_gt hn0), Int.emod_lt_of_pos a hn0⟩

theorem expenseShares_sndSum (a : Int) {g : List String} (hg : g ≠ []) :
    sndSum (expenseShares a g) = a := by
  have hn : 0 < g.length := List.length_pos.mpr hg
  obtain ⟨hr0, hrn⟩ := fdiv_remainder_bounds a hn
  unfold sndSum
  rw [expenseShares_snd]
  rw [List.sum_map_add (f := fun _ : Nat => a.fdiv (g.length : Int))
    (g := fun i : Nat =>
      if (i : Int) < a - a.fdiv (g.length : Int) * (g.length : Int) then 1 else 0)]
  rw [sum_range_if_lt _ _ hr0]
  rw [List.map_const', List.sum_replicate, List.length_range]
  rw [min_eq_right (le_of_lt hrn)]
  rw [nsmul_eq_mul]
  ring

theorem expenseShares_of_no_remainder (a : Int) (g : List String)
    (h : a - a.fdiv (g.length : Int) * (g.length : Int) = 0) :
    expenseShares a g = g.map (fun m => (m, a.fdiv (g.length : Int))) := by
  simp only [expenseShares, h]
  conv_rhs => rw [← List.enum_map_snd g]
  rw [List.map_map]
  apply List.map_congr_left
  intro p _
  have hp : ¬ ((p.1 : Int) < 0) := by omega
  simp [hp]

theorem nameSum_map_const (p : String) (c : Int) (g : List String) :
    nameSum p (g.map (fun m => (m, c))) = c * (g.count p : Int) := by
  induction g with
  | nil => simp [nameSum_nil]
  | cons a g ih =>
    rw [List.map_cons, nameSum_cons, ih, List.count_cons]
    by_cases h : a = p
    · rw [if_pos h]
      simp only [h, beq_self_eq_true, if_pos]
      push_cast
      ring
    · rw [if_neg h]
      have : (a == p) = false := beq_false_of_ne h
      simp only [this, if_false]
      push_cast
      ring

/-! ### Conservation of money across the balance sheet -/

theorem sum_map_sub {α : Type} (l : List α) (f g : α → Int) :
    (l.map (fun a => f a - g a)).sum = (l.map f).sum - (l.map g).sum := by
  induction l with
  | nil => simp
  | cons a l ih =>
    simp only [List.map_cons, List.sum_cons, ih]
    ring

theorem sum_paid_eq (es : List Expense) :
    ((collectParticipants es).map (paidOf es)).sum = (es.map Expense.amount).sum := by
  unfold paidOf
  rw [list_sum_comm (collectParticipants es) es
    (fun n e => if e.payerName = n then e.amount else 0)]
  apply congrArg
  apply List.map_congr_left
  intro e he
  exact sum_if_eq_left e.payerName e.amount (collectParticipants_nodup es)
    (payer_mem_collectParticipants he)

theorem sum_univ_nameSum {l : List (String × Int)} {univ : List String}
    (hnd : univ.Nodup) (hsub : ∀ q ∈ l, q.1 ∈ univ) :
    (univ.map (fun n => nameSum n l)).sum = sndSum l := by
  unfold nameSum
  rw [list_sum_comm univ l (fun n q => if q.1 = n then q.2 else 0)]
  unfold sndSum
  apply congrArg
  apply List.map_congr_left
  intro q hq
  exact sum_if_eq_left q.1 q.2 hnd (hsub q hq)

theorem sum_shouldPay_eq (es : List Expense) :
    ((collectParticipants es).map (shouldPayOf es)).sum = (es.map Expense.amount).sum := by
  unfold shouldPayOf
  rw [list_sum_comm (collectParticipants es) es (fun n e => shareOf es e n)]
  apply congrArg
  apply List.map_congr_left
  intro e he
  unfold shareOf
  rw [sum_univ_nameSum (collectParticipants_nodup es)
    (fun q hq => splitGroupFor_subset he q.1 (mem_fst_of_mem_expenseShares hq))]
  exact expenseShares_sndSum e.amount (splitGroupFor_ne_nil he)

theorem sndSum_finalBalances (es : List Expense) : sndSum (finalBalances es) = 0 := by
  unfold finalBalances sndSum
  rw [List.map_map]
  have : (Prod.snd ∘ fun n => (n, balanceOf es n)) = fun n => balanceOf es n := rfl
  rw [this]
  unfold balanceOf
  rw [sum_map_sub (collectParticipants es) (paidOf es) (shouldPayOf es)]
  rw [sum_paid_eq, sum_shouldPay_eq]
  ring

/-! ### Decomposition of the receiver and payer lists -/

theorem sndSum_filter_pos (l : List (String × Int)) :
    sndSum (l.filter (fun p => 0 < p.2)) = (l.map (fun p => max p.2 0)).sum := by
  induction l with
  | nil => rfl
  | cons a l ih =>
    rw [List.filter_cons, List.map_cons, List.sum_cons]
    by_cases h : 0 < a.2
    · rw [if_pos (by simpa using h), sndSum_cons, ih]
      have : max a.2 0 = a.2 := max_eq_left (le_of_lt h)
      omega
    · rw [if_neg (by simpa using h), ih]
      have : max a.2 0 = 0 := max_eq_right (by omega)
      omega

theorem sndSum_filter_neg (l : List (String × Int)) :
    sndSum ((l.filter (fun p => p.2 < 0)).map (fun p => (p.1, |p.2|))) =
      (l.map (fun p => max (-p.2) 0)).sum := by
  induction l with
  | nil => rfl
  | cons a l ih =>
    rw [List.filter_cons, List.map_cons, List.sum_cons]
    by_cases h : a.2 < 0
    · rw [if_pos (by simpa using h), List.map_cons, sndSum_cons, ih]
      have h1 : |a.2| = -a.2 := abs_of_neg h
      have h2 : max (-a.2) 0 = -a.2 := max_eq_left (by omega)
      simp only [h1, h2]
    · rw [if_neg (by simpa using h), ih]
      have : max (-a.2) 0 = 0 := max_eq_right (by omega)
      omega

theorem sum_max_split (l : List (String × Int)) :
    (l.map (fun p => max p.2 0)).sum - (l.map (fun p => max (-p.2) 0)).sum = sndSum l := by
  induction l with
  | nil => rfl
  | cons a l ih =>
    rw [List.map_cons, List.map_cons, List.sum_cons, List.sum_cons, sndSum_cons]
    have h1 : max a.2 0 - max (-a.2) 0 = a.2 := by
      rcases le_total a.2 0 with h | h
      · rw [max_eq_right h, max_eq_left (by omega)]
        ring
      · rw [max_eq_left h, max_eq_right (by omega)]
        ring
    omega

theorem nameSum_filter_pos (l : List (String × Int)) (n : String) :
    nameSum n (l.filter (fun p => 0 < p.2)) =
      (l.map (fun p => if p.1 = n then max p.2 0 else 0)).sum := by
  induction l with
  | nil => rfl
  | cons a l ih =>
    rw [List.filter_cons, List.map_cons, List.sum_cons]
    by_cases h : 0 < a.2
    · rw [if_pos (by simpa using h), nameSum_cons, ih]
      have : max a.2 0 = a.2 := max_eq_left (le_of_lt h)
      rw [this]
    · rw [if_neg (by simpa using h), ih]
      have h2 : max a.2 0 = 0 := max_eq_right (by omega)
      rw [h2]
      simp

theorem nameSum_filter_neg (l : List (String × Int)) (n : String) :
    nameSum n ((l.filter (fun p => p.2 < 0)).map (fun p => (p.1, |p.2|))) =
      (l.map (fun p => if p.1 = n then max (-p.2) 0 else 0)).sum := by
  induction l with
  | nil => rfl
  | cons a l ih =>
    rw [List.filter_cons, List.map_cons, List.sum_cons]
    by_cases h : a.2 < 0
    · rw [if_pos (by simpa using h), List.map_cons, nameSum_cons, ih]
      have h1 : |a.2| = -a.2 := abs_of_neg h
      have h2 : max (-a.2) 0 = -a.2 := max_eq_left (by omega)
      simp only [h1, h2]
    · rw [if_neg (by simpa using h), ih]
      have : max (-a.2) 0 = 0 := max_eq_right (by omega)
      rw [this]
      simp

/-! ### The greedy matching loop -/

theorem greedyAux_cons (fuel : Nat) (pn rn : String) (pa ra : Int)
    (ps rs : List (String × Int)) (h : 0 < min pa ra) :
    greedyAux (fuel + 1) ((pn, pa) :: ps) ((rn, ra) :: rs) =
      ⟨pn, rn, min pa ra⟩ ::
        greedyAux fuel
          (if pa - min pa ra ≤ 0 then ps else (pn, pa - min pa ra) :: ps)
          (if ra - min pa ra ≤ 0 then rs else (rn, ra - min pa ra) :: rs) := by
  simp only [greedyAux]
  rw [if_pos h]

theorem greedyAux_spec :
    ∀ (fuel : Nat) (ps rs : List (String × Int)),
      ps.length + rs.length ≤ fuel →
      (∀ x ∈ ps, 0 < x.2) → (∀ x ∈ rs, 0 < x.2) →
      sndSum ps = sndSum rs →
      amountSum (greedyAux fuel ps rs) = sndSum ps ∧
        (∀ n, sentBy n (greedyAux fuel ps rs) = nameSum n ps) ∧
        (∀ n, receivedBy n (greedyAux fuel ps rs) = nameSum n rs) := by
  intro fuel
  induction fuel with
  | zero =>
    intro ps rs hlen _ _ _
    have hps : ps = [] := List.eq_nil_of_length_eq_zero (by omega)
    have hrs : rs = [] := List.eq_nil_of_length_eq_zero (by omega)
    subst hps
    subst hrs
    refine ⟨rfl, fun n => rfl, fun n => rfl⟩
  | succ fuel ih =>
    intro ps rs hlen hppos hrpos hbal
    match ps, rs with
    | [], rs =>
      have hrs : rs = [] := eq_nil_of_sndSum_eq_zero hrpos (by
        rw [← hbal]
        rfl)
      subst hrs
      exact ⟨rfl, fun n => rfl, fun n => rfl⟩
    | (pn, pa) :: ps, [] =>
      exfalso
      have h1 : 0 < sndSum ((pn, pa) :: ps) :=
        sndSum_pos (List.cons_ne_nil _ _) hppos
      have h2 : sndSum ((pn, pa) :: ps) = 0 := by
        rw [hbal]
        rfl
      omega
    | (pn, pa) :: ps, (rn, ra) :: rs =>
      have hpa : 0 < pa := hppos (pn, pa) (List.mem_cons_self _ _)
      have hra : 0 < ra := hrpos (rn, ra) (List.mem_cons_self _ _)
      have hpay : 0 < min pa ra := lt_min hpa hra
      have hpaya : min pa ra ≤ pa := min_le_left _ _
      have hpayb : min pa ra ≤ ra := min_le_right _ _
      have hchoice : min pa ra = pa ∨ min pa ra = ra := min_choice pa ra
      rw [greedyAux_cons fuel pn rn pa ra ps rs hpay]
      set pay := min pa ra with hpaydef
      set ps1 := if pa - pay ≤ 0 then ps else (pn, pa - pay) :: ps with hps1
      set rs1 := if ra - pay ≤ 0 then rs else (rn, ra - pay) :: rs with hrs1
      have hlen1 : ps1.length + rs1.length ≤ fuel := by
        have hlp : ps1.length ≤ ps.length + 1 := by
          rw [hps1]
          split
          · omega
          · simp [List.length_cons]
        have hlr : rs1.length ≤ rs.length + 1 := by
          rw [hrs1]
          split
          · omega
          · simp [List.length_cons]
        have hshrink : ps1.length = ps.length ∨ rs1.length = rs.length := by
          rcases hchoice with h | h
          · left
            rw [hps1, if_pos (by omega)]
          · right
            rw [hrs1, if_pos (by omega)]
        simp only [List.length_cons] at hlen
        rcases hshrink with h | h <;> omega
      have hp1pos : ∀ x ∈ ps1, 0 < x.2 := by
        rw [hps1]
        split
        · exact fun x hx => hppos x (List.mem_cons_of_mem _ hx)
        · next hcond =>
          intro x hx
          rcases List.mem_cons.mp hx with rfl | hx
          · simpa using by omega
          · exact hppos x (List.mem_cons_of_mem _ hx)
      have hr1pos : ∀ x ∈ rs1, 0 < x.2 := by
        rw [hrs1]
        split
        · exact fun x hx => hrpos x (List.mem_cons_of_mem _ hx)
        · next hcond =>
          intro x hx
          rcases List.mem_cons.mp hx with rfl | hx
          · simpa using by omega
          · exact hrpos x (List.mem_cons_of_mem _ hx)
      have hsum1 : sndSum ps1 = pa + sndSum ps - pay := by
        rw [hps1]
        split
        · next h => omega
        · rw [sndSum_cons]
          omega
      have hsum2 : sndSum rs1 = ra + sndSum rs - pay := by
        rw [hrs1]
        split
        · next h => omega
        · rw [sndSum_cons]
          omega
      have hbal1 : sndSum ps1 = sndSum rs1 := by
        rw [hsum1, hsum2]
        rw [sndSum_cons, sndSum_cons] at hbal
        omega
      obtain ⟨iha, ihs, ihr⟩ := ih ps1 rs1 hlen1 hp1pos hr1pos hbal1
      refine ⟨?_, ?_, ?_⟩
      · rw [amountSum_cons, iha, hsum1, sndSum_cons]
        have hproj : Settlement.amount ⟨pn, rn, pay⟩ = pay := rfl
        rw [hproj]
        omega
      · intro n
        rw [sentBy_cons, ihs n, sndSum_cons] at *
        have hname1 : nameSum n ps1 =
            (if pn = n then pa - pay else 0) + nameSum n ps := by
          rw [hps1]
          split
          · next h =>
            have : pa - pay = 0 := by omega
            rw [this]
            simp
          · rw [nameSum_cons]
        rw [hname1, nameSum_cons]
        by_cases h : pn = n
        · simp [h]
          omega
        · simp [h]
      · intro n
        rw [receivedBy_cons, ihr n, sndSum_cons] at *
        have hname1 : nameSum n rs1 =
            (if rn = n then ra - pay else 0) + nameSum n rs := by
          rw [hrs1]
          split
          · next h =>
            have : ra - pay = 0 := by omega
            rw [this]
            simp
          · rw [nameSum_cons]
        rw [hname1, nameSum_cons]
        by_cases h : rn = n
        · simp [h]
          omega
        · simp [h]

theorem greedyAux_mem :
    ∀ (fuel : Nat) (ps rs : List (String × Int)),
      (∀ x ∈ ps, 0 < x.2) → (∀ x ∈ rs, 0 < x.2) →
      ∀ t ∈ greedyAux fuel ps rs,
        0 < t.amount ∧ t.src ∈ ps.map Prod.fst ∧ t.dst ∈ rs.map Prod.fst := by
  intro fuel
  induction fuel with
  | zero =>
    intro ps rs _ _ t ht
    exact absurd ht (List.not_mem_nil t)
  | succ fuel ih =>
    intro ps rs hppos hrpos t ht
    match ps, rs with
    | [], rs => exact absurd ht (List.not_mem_nil t)
    | _ :: _, [] => exact absurd ht (List.not_mem_nil t)
    | (pn, pa) :: ps, (rn, ra) :: rs =>
      have hpa : 0 < pa := hppos (pn, pa) (List.mem_cons_self _ _)
      have hra : 0 < ra := hrpos (rn, ra) (List.mem_cons_self _ _)
      have hpay : 0 < min pa ra := lt_min hpa hra
      rw [greedyAux_cons fuel pn rn pa ra ps rs hpay] at ht
      set pay := min pa ra with hpaydef
      set ps1 := if pa - pay ≤ 0 then ps else (pn, pa - pay) :: ps with hps1
      set rs1 := if ra - pay ≤ 0 then rs else (rn, ra - pay) :: rs with hrs1
      have hp1pos : ∀ x ∈ ps1, 0 < x.2 := by
        rw [hps1]
        split
        · exact fun x hx => hppos x (List.mem_cons_of_mem _ hx)
        · next hcond =>
          intro x hx
          rcases List.mem_cons.mp hx with rfl | hx
          · simpa using by omega
          · exact hppos x (List.mem_cons_of_mem _ hx)
      have hr1pos : ∀ x ∈ rs1, 0 < x.2 := by
        rw [hrs1]
        split
        · exact fun x hx => hrpos x (List.mem_cons_of_mem _ hx)
        · next hcond =>
          intro x hx
          rcases List.mem_cons.mp hx with rfl | hx
          · simpa using by omega
          · exact hrpos x (List.mem_cons_of_mem _ hx)
      rcases List.mem_cons.mp ht with rfl | ht
      · refine ⟨hpay, ?_, ?_⟩
        · exact List.mem_map_of_mem Prod.fst (List.mem_cons_self _ _)
        · exact List.mem_map_of_mem Prod.fst (List.mem_cons_self _ _)
      · obtain ⟨h1, h2, h3⟩ := ih ps1 rs1 hp1pos hr1pos t ht
        refine ⟨h1, ?_, ?_⟩
        · have hsub : ps1.map Prod.fst ⊆ pn :: ps.map Prod.fst := by
            rw [hps1]
            split
            · exact fun x hx => List.mem_cons_of_mem _ hx
            · simp only [List.map_cons]
              exact fun x hx => hx
          simpa using hsub h2
        · have hsub : rs1.map Prod.fst ⊆ rn :: rs.map Prod.fst := by
            rw [hrs1]
            split
            · exact fun x hx => List.mem_cons_of_mem _ hx
            · simp only [List.map_cons]
              exact fun x hx => hx
          simpa using hsub h3

/-! ### Bridging the engine stages -/

theorem receiversOf_perm (b : List (String × Int)) :
    (receiversOf b).Perm (b.filter (fun p => 0 < p.2)) :=
  sortByAmountDesc_perm _

theorem payersOf_perm (b : List (String × Int)) :
    (payersOf b).Perm ((b.filter (fun p => p.2 < 0)).map (fun p => (p.1, |p.2|))) :=
  sortByAmountDesc_perm _

theorem receiversOf_pos (b : List (String × Int)) :
    ∀ x ∈ receiversOf b, 0 < x.2 := by
  intro x hx
  have := ((receiversOf_perm b).mem_iff).mp hx
  have := List.mem_filter.mp this
  simpa using this.2

theorem payersOf_pos (b : List (String × Int)) :
    ∀ x ∈ payersOf b, 0 < x.2 := by
  intro x hx
  have hx2 := ((payersOf_perm b).mem_iff).mp hx
  obtain ⟨q, hq, rfl⟩ := List.mem_map.mp hx2
  have hqneg : q.2 < 0 := by simpa using (List.mem_filter.mp hq).2
  simpa using abs_pos.mpr (ne_of_lt hqneg)

theorem totalReceive_eq (es : List Expense) :
    totalReceive (finalBalances es) =
      ((finalBalances es).map (fun p => max p.2 0)).sum := by
  unfold totalReceive
  rw [sndSum_perm (receiversOf_perm _), sndSum_filter_pos]

theorem totalPay_eq (es : List Expense) :
    totalPay (finalBalances es) =
      ((finalBalances es).map (fun p => max (-p.2) 0)).sum := by
  unfold totalPay
  rw [sndSum_perm (payersOf_perm _), sndSum_filter_neg]

theorem totals_balanced (es : List Expense) :
    totalReceive (finalBalances es) = totalPay (finalBalances es) := by
  rw [totalReceive_eq, totalPay_eq]
  have h1 := sum_max_split (finalBalances es)
  have h2 := sndSum_finalBalances es
  omega

theorem payers_receivers_balanced (es : List Expense) :
    sndSum (payersOf (finalBalances es)) = sndSum (receiversOf (finalBalances es)) := by
  have h := totals_balanced es
  unfold totalReceive totalPay at h
  exact h.symm

theorem finalBalances_map_pos (es : List Expense) :
    ((finalBalances es).map (fun p => max p.2 0)).sum =
      ((collectParticipants es).map (fun n => max (balanceOf es n) 0)).sum := by
  unfold finalBalances
  rw [List.map_map]
  rfl

theorem finalBalances_map_neg (es : List Expense) :
    ((finalBalances es).map (fun p => max (-p.2) 0)).sum =
      ((collectParticipants es).map (fun n => max (-(balanceOf es n)) 0)).sum := by
  unfold finalBalances
  rw [List.map_map]
  rfl

theorem sentBy_settle (es : List Expense) (hne : es ≠ []) (n : String)
    (hn : n ∈ collectParticipants es) :
    sentBy n (calculateSettlements es) = max (-(balanceOf es n)) 0 := by
  unfold calculateSettlements
  rw [if_neg hne]
  unfold settleBalances
  obtain ⟨_, hsent, _⟩ := greedyAux_spec
    ((payersOf (finalBalances es)).length + (receiversOf (finalBalances es)).length)
    (payersOf (finalBalances es)) (receiversOf (finalBalances es))
    (le_refl _) (payersOf_pos _) (receiversOf_pos _)
    (payers_receivers_balanced es)
  rw [hsent n]
  rw [nameSum_perm n (payersOf_perm _), nameSum_filter_neg]
  unfold finalBalances
  rw [List.map_map]
  have : ((fun p : String × Int => if p.1 = n then max (-p.2) 0 else 0) ∘
      fun m => (m, balanceOf es m)) =
      fun m => if m = n then max (-(balanceOf es m)) 0 else 0 := rfl
  rw [this]
  exact sum_if_eq_right n (fun m => max (-(balanceOf es m)) 0)
    (collectParticipants_nodup es) hn

theorem receivedBy_settle (es : List Expense) (hne : es ≠ []) (n : String)
    (hn : n ∈ collectParticipants es) :
    receivedBy n (calculateSettlements es) = max (balanceOf es n) 0 := by
  unfold calculateSettlements
  rw [if_neg hne]
  unfold settleBalances
  obtain ⟨_, _, hrecv⟩ := greedyAux_spec
    ((payersOf (finalBalances es)).length + (receiversOf (finalBalances es)).length)
    (payersOf (finalBalances es)) (receiversOf (finalBalances es))
    (le_refl _) (payersOf_pos _) (receiversOf_pos _)
    (payers_receivers_balanced es)
  rw [hrecv n]
  rw [nameSum_perm n (receiversOf_perm _), nameSum_filter_pos]
  unfold finalBalances
  rw [List.map_map]
  have : ((fun p : String × Int => if p.1 = n then max p.2 0 else 0) ∘
      fun m => (m, balanceOf es m)) =
      fun m => if m = n then max (balanceOf es m) 0 else 0 := rfl
  rw [this]
  exact sum_if_eq_right n (fun m => max (balanceOf es m) 0)
    (collectParticipants_nodup es) hn

theorem amountSum_settle (es : List Expense) (hne : es ≠ []) :
    amountSum (calculateSettlements es) =
      ((collectParticipants es).map (fun n => max (balanceOf es n) 0)).sum := by
  unfold calculateSettlements
  rw [if_neg hne]
  unfold settleBalances
  obtain ⟨hamt, _, _⟩ := greedyAux_spec
    ((payersOf (finalBalances es)).length + (receiversOf (finalBalances es)).length)
    (payersOf (finalBalances es)) (receiversOf (finalBalances es))
    (le_refl _) (payersOf_pos _) (receiversOf_pos _)
    (payers_receivers_balanced es)
  rw [hamt]
  have : sndSum (payersOf (finalBalances es)) = totalPay (finalBalances es) := rfl
  rw [this, ← totals_balanced es, totalReceive_eq, finalBalances_map_pos]

/-! ### Claim theorems -/

/-- Claim C1: for every list of valid expenses (non-empty payer, positive
integer amount) the settlement list satisfies conservation — the sum of
the transfer amounts equals the sum of the positive net balances, which
equals the absolute sum of the negative net balances — and zero-sum
closure: every debtor sends exactly their debt, every creditor receives
exactly their credit, and every participant's adjusted balance
(balance plus money sent minus money received) is exactly 0. -/
theorem settlements_conservation_and_closure (es : List Expense)
    (hpos : ∀ e ∈ es, 0 < e.amount) (hpayer : ∀ e ∈ es, e.payerName ≠ "") :
    amountSum (calculateSettlements es) =
      ((collectParticipants es).map (fun n => max (balanceOf es n) 0)).sum ∧
    ((collectParticipants es).map (fun n => max (balanceOf es n) 0)).sum =
      ((collectParticipants es).map (fun n => max (-(balanceOf es n)) 0)).sum ∧
    ∀ n ∈ collectParticipants es,
      sentBy n (calculateSettlements es) = max (-(balanceOf es n)) 0 ∧
      receivedBy n (calculateSettlements es) = max (balanceOf es n) 0 ∧
      balanceOf es n + sentBy n (calculateSettlements es) -
        receivedBy n (calculateSettlements es) = 0 := by
  by_cases hne : es = []
  · subst hne
    refine ⟨rfl, rfl, ?_⟩
    intro n hn
    exact absurd hn (List.not_mem_nil n)
  · have hbal : ((collectParticipants es).map (fun n => max (balanceOf es n) 0)).sum =
        ((collectParticipants es).map (fun n => max (-(balanceOf es n)) 0)).sum := by
      have h := totals_balanced es
      rw [totalReceive_eq, totalPay_eq, finalBalances_map_pos, finalBalances_map_neg] at h
      exact h
    refine ⟨amountSum_settle es hne, hbal, ?_⟩
    intro n hn
    have hs := sentBy_settle es hne n hn
    have hr := receivedBy_settle es hne n hn
    exact ⟨hs, hr, by omega⟩

/-- Witness for C1 at the concrete ledger `exampleLedger`. -/
theorem settlements_conservation_and_closure_witness :
    (∀ e ∈ exampleLedger, 0 < e.amount) ∧
    (∀ e ∈ exampleLedger, e.payerName ≠ "") ∧
    amountSum (calculateSettlements exampleLedger) =
      ((collectParticipants exampleLedger).map
        (fun n => max (balanceOf exampleLedger n) 0)).sum :=
  ⟨by decide, by decide,
    (settlements_conservation_and_closure exampleLedger (by decide) (by decide)).1⟩

/-- Helper for C2: the source share assignment coincides with the one the
spec describes. -/
theorem expenseShares_eq_specShares (A : Int) (g : List String) :
    expenseShares A g = specShares A g := by
  simp only [expenseShares, specShares]
  apply List.map_congr_left
  intro p _
  by_cases h : (p.1 : Int) < A - A.fdiv (g.length : Int) * (g.length : Int)
  · simp [h]
  · simp [h]

/-- Claim C2: for an integer amount split among a non-empty member list the
engine assigns each member the base share `floor(A/n)` plus one extra
unit to exactly the first `A - n*floor(A/n)` members in stable order
(the spec-side description `specShares`), the assigned shares sum to
exactly `A`, and in particular 100 split among 3 people gives shares
34/33/33 in first-appearance order. -/
theorem shares_remainder_distribution (A : Int) (g : List String) (hg : g ≠ []) :
    sndSum (expenseShares A g) = A ∧
    (expenseShares A g).map Prod.fst = g ∧
    expenseShares A g = specShares A g ∧
    expenseShares 100 ["A", "B", "C"] = [("A", 34), ("B", 33), ("C", 33)] :=
  ⟨expenseShares_sndSum A hg, expenseShares_fst A g,
    expenseShares_eq_specShares A g, by decide⟩

/-- Witness for C2 at amount 100 and the three-member group. -/
theorem shares_remainder_distribution_witness :
    (["A", "B", "C"] : List String) ≠ [] ∧
    sndSum (expenseShares 100 ["A", "B", "C"]) = 100 :=
  ⟨by decide, (shares_remainder_distribution 100 ["A", "B", "C"] (by decide)).1⟩

/-- Claim C3: in the section 8.6 scenario — participants {A, B}, a
`SharedWithAll` expense of 100 paid by A, then participant C added —
the settlement computation splits the 100 three ways over {A, B, C}
with shares 34/33/33; the pre-addition snapshot does not freeze C out. -/
theorem dynamic_growth_scenario :
    createExpense growthStart "A" "dinner" 100 [] = .ok (growthMid, sharedDinner) ∧
    addParticipant growthMid "C" = .ok growthEnd ∧
    splitGroupFor growthEnd.expenses grownDinner = ["A", "B", "C"] ∧
    shouldPayOf growthEnd.expenses "A" = 34 ∧
    shouldPayOf growthEnd.expenses "B" = 33 ∧
    shouldPayOf growthEnd.expenses "C" = 33 ∧
    calculateSettlements growthEnd.expenses =
      [⟨"B", "A", 33⟩, ⟨"C", "A", 33⟩] := by decide

/-- Claim C4 counterexample: the split group of a `SharedWithAll` expense at
settlement time is the expense-derived universe, not the resolved
participant set `GET /settlements` fetches — poll respondent B is in the
resolved set but shares nothing. -/
theorem shared_split_ignores_resolved_set :
    (⟨"A", "taxi", 100, ["A"], true⟩ : Expense) ∈ pollLateState.expenses ∧
    (⟨"A", "taxi", 100, ["A"], true⟩ : Expense).isSharedWithAll = true ∧
    dbGetEventParticipants pollLateState = ["A", "B"] ∧
    splitGroupFor pollLateState.expenses ⟨"A", "taxi", 100, ["A"], true⟩ = ["A"] ∧
    "B" ∈ dbGetEventParticipants pollLateState ∧
    ¬ "B" ∈ splitGroupFor pollLateState.expenses ⟨"A", "taxi", 100, ["A"], true⟩ ∧
    shouldPayOf pollLateState.expenses "B" = 0 ∧
    shouldPayOf pollLateState.expenses "A" = 100 := by decide

/-- Claim C4 amended: the split group of a `SharedWithAll` expense at
settlement time is the full participant universe derived from the
expense list itself (all payers and snapshot members), superseding the
expense's own stored snapshot, which is contained in it; participants
visible only to resolution (creator, poll respondents in no expense) are
not part of the split. -/
theorem shared_split_is_expense_universe (es : List Expense) (e : Expense)
    (he : e ∈ es) (hflag : e.isSharedWithAll = true) :
    splitGroupFor es e = collectParticipants es ∧
    ∀ x ∈ e.participants, x ∈ splitGroupFor es e := by
  have hsplit : splitGroupFor es e = collectParticipants es := by
    unfold splitGroupFor
    rw [hflag]
    simp
  refine ⟨hsplit, ?_⟩
  intro x hx
  rw [hsplit]
  exact participant_mem_collectParticipants he hx

/-- Witness for the amended C4 at the `pollLateState` expense list. -/
theorem shared_split_is_expense_universe_witness :
    (⟨"A", "taxi", 100, ["A"], true⟩ : Expense) ∈ pollLateState.expenses ∧
    splitGroupFor pollLateState.expenses ⟨"A", "taxi", 100, ["A"], true⟩ =
      collectParticipants pollLateState.expenses :=
  ⟨by decide,
    (shared_split_is_expense_universe pollLateState.expenses
      ⟨"A", "taxi", 100, ["A"], true⟩ (by decide) (by decide)).1⟩

/-- Claim C5 counterexample: an explicitly passed empty member list is not
rejected — the route cannot distinguish it from an omitted list (zod
defaults both to `[]`) and silently creates a `SharedWithAll` expense. -/
theorem empty_member_list_not_rejected :
    createExpense readyEvent "A" "dinner" 10 [] ≠ Except.error ApiError.validation ∧
    createExpense readyEvent "A" "dinner" 10 [] =
      Except.ok ({ readyEvent with expenses := [⟨"A", "dinner", 10, ["A"], true⟩] },
        ⟨"A", "dinner", 10, ["A"], true⟩) := by decide

/-- Claim C5 amended: the route rejects amount 0 or negative (with non-empty
payer and description) with a ValidationError and creates no expense,
but an empty member list — omitted or explicitly passed, which the
route cannot tell apart — is accepted and silently turned into a
`SharedWithAll` expense whose snapshot is the currently resolved
participant list. -/
theorem create_expense_validation (s : EventState) (p d : String) (A : Int)
    (hp : p ≠ "") (hd : d ≠ "") :
    (A ≤ 0 → ∀ ps, createExpense s p d A ps = Except.error ApiError.validation) ∧
    (0 < A → s.selectedDate = true →
      createExpense s p d A [] =
        Except.ok
          ({ s with expenses :=
              s.expenses ++ [⟨p, d, A, dbGetEventParticipants s, true⟩] },
            ⟨p, d, A, dbGetEventParticipants s, true⟩)) := by
  constructor
  · intro hA ps
    unfold createExpense
    rw [if_neg hp, if_neg hd, if_pos hA]
  · intro hA hsel
    unfold createExpense
    rw [if_neg hp, if_neg hd, if_neg (by omega), if_neg (by simp [hsel])]
    simp

/-- Witness for the amended C5: rejection at amount 0 and acceptance of
the empty list at amount 10, on the concrete `readyEvent`. -/
theorem create_expense_validation_witness :
    ("A" : String) ≠ "" ∧ ("dinner" : String) ≠ "" ∧
    createExpense readyEvent "A" "dinner" 0 [] = Except.error ApiError.validation :=
  ⟨by decide, by decide,
    (create_expense_validation readyEvent "A" "dinner" 0 (by decide) (by decide)).1
      (by decide) []⟩

/-- Claim C6 counterexample: permuting the expense list changes net balances —
the one-unit remainder of the shared expense lands on the first universe
member, and the universe order follows expense order. -/
theorem balance_order_dependence :
    List.Perm [swapE1, swapE2] [swapE2, swapE1] ∧
    balanceOf [swapE1, swapE2] "A" = 0 ∧
    balanceOf [swapE2, swapE1] "A" = 1 ∧
    ¬ balanceOf [swapE1, swapE2] "A" = balanceOf [swapE2, swapE1] "A" ∧
    calculateSettlements [swapE1, swapE2] = [] ∧
    calculateSettlements [swapE2, swapE1] = [⟨"B", "A", 1⟩] := by decide

/-- Helper: permuting the expense list permutes the participant
universe. -/
theorem collectParticipants_perm {es es2 : List Expense} (h : es.Perm es2) :
    (collectParticipants es).Perm (collectParticipants es2) := by
  rw [List.perm_ext_iff_of_nodup (collectParticipants_nodup es)
    (collectParticipants_nodup es2)]
  intro a
  rw [mem_collectParticipants, mem_collectParticipants]
  constructor
  · rintro ⟨e, he, hx⟩
    exact ⟨e, h.mem_iff.mp he, hx⟩
  · rintro ⟨e, he, hx⟩
    exact ⟨e, h.mem_iff.mpr he, hx⟩

/-- Helper: permuting the expense list permutes every split group. -/
theorem splitGroupFor_perm {es es2 : List Expense} (h : es.Perm es2)
    (e : Expense) : (splitGroupFor es e).Perm (splitGroupFor es2 e) := by
  cases hb : e.isSharedWithAll
  · by_cases hp : e.participants = []
    · simp only [splitGroupFor, hb, hp]
      simpa using collectParticipants_perm h
    · simp only [splitGroupFor, hb]
      simp [hp]
  · simp only [splitGroupFor, hb]
    simpa using collectParticipants_perm h

/-- Helper: an evenly divided expense contributes the same share to each
participant whichever permutation of the ledger is used. -/
theorem shareOf_perm {es es2 : List Expense} (h : es.Perm es2) (e : Expense)
    (p : String)
    (hdiv : e.amount - e.amount.fdiv ((splitGroupFor es e).length : Int) *
      ((splitGroupFor es e).length : Int) = 0) :
    shareOf es2 e p = shareOf es e p := by
  unfold shareOf
  have hperm := splitGroupFor_perm h e
  have hlen : (splitGroupFor es2 e).length = (splitGroupFor es e).length :=
    hperm.length_eq.symm
  have hdiv2 : e.amount - e.amount.fdiv ((splitGroupFor es2 e).length : Int) *
      ((splitGroupFor es2 e).length : Int) = 0 := by
    rw [hlen]
    exact hdiv
  rw [expenseShares_of_no_remainder _ _ hdiv, expenseShares_of_no_remainder _ _ hdiv2]
  rw [nameSum_map_const, nameSum_map_const]
  rw [hlen, hperm.count_eq p]

/-- Claim C6 amended: balance accumulation is order-independent exactly when no
expense leaves a division remainder: `paid` is always order-independent,
and when every expense's amount is an exact multiple of its split-group
size the whole net balance of every participant is invariant under any
permutation of the expense list.  (The counterexample shows the remainder
distribution itself is order-dependent, because the one-unit extras
follow the universe insertion order, which follows expense order.) -/
theorem balance_order_independence_even_split (es es2 : List Expense)
    (hperm : es.Perm es2)
    (hdiv : ∀ e ∈ es,
      e.amount - e.amount.fdiv ((splitGroupFor es e).length : Int) *
        ((splitGroupFor es e).length : Int) = 0) :
    ∀ p, balanceOf es2 p = balanceOf es p := by
  intro p
  unfold balanceOf
  have hpaid : paidOf es2 p = paidOf es p := by
    unfold paidOf
    exact ((hperm.map _).sum_eq).symm
  have hshould : shouldPayOf es2 p = shouldPayOf es p := by
    unfold shouldPayOf
    have step : ∀ e ∈ es2, shareOf es2 e p = shareOf es e p := by
      intro e he
      exact shareOf_perm hperm e p (hdiv e (hperm.mem_iff.mpr he))
    rw [List.map_congr_left step]
    exact ((hperm.map _).sum_eq).symm
  rw [hpaid, hshould]

/-- Witness for the amended C6 on a two-expense ledger with even splits,
evaluated at participant A. -/
theorem balance_order_independence_even_split_witness :
    List.Perm [divE1, divE2] [divE2, divE1] ∧
    balanceOf [divE2, divE1] "A" = balanceOf [divE1, divE2] "A" :=
  ⟨by decide,
    balance_order_independence_even_split [divE1, divE2] [divE2, divE1]
      (by decide) (by decide) "A"⟩

/-- Claim C7 counterexample: the active `DatabaseStorage.getEventParticipants`
ignores the event's persisted participant list, so a stored name that is
not otherwise referenced is dropped by re-resolution. -/
theorem resolution_drops_stored_name :
    "X" ∈ straggler.participants ∧
    dbGetEventParticipants straggler = ["A"] ∧
    ¬ "X" ∈ dbGetEventParticipants straggler := by decide

/-- Helper: a fold whose step function only ever adds names keeps every
name already accumulated. -/
theorem foldl_preserves_mem {α : Type} (f : List String → α → List String)
    (hf : ∀ acc x y, y ∈ acc → y ∈ f acc x) (l : List α) :
    ∀ (acc : List String) (y : String), y ∈ acc → y ∈ l.foldl f acc := by
  induction l with
  | nil => exact fun acc y hy => hy
  | cons a l ih => exact fun acc y hy => ih _ y (hf acc a y hy)

/-- Claim C7 amended: the `MemStorage` resolution is monotonic — every name in
the event's persisted participant list is still in the list the call
returns, and in the list persisted by its write-back side effect — but
the exported `DatabaseStorage` resolution neither reads nor writes the
persisted list: it re-derives participants from expenses, attendances
and the creator only, so a persisted name referenced nowhere else is
absent from its result. -/
theorem mem_resolution_monotone (s : EventState) (n : String)
    (hn : n ∈ s.participants) :
    n ∈ memGetEventParticipants s ∧ n ∈ ((memResolve s).2).participants := by
  have h1 : n ∈ memGetEventParticipants s := by
    unfold memGetEventParticipants
    apply foldl_preserves_mem
    · intro acc e y hy
      apply foldl_preserves_mem
      · intro acc2 m y2 hy2
        split
        · exact mem_insertName.mpr (Or.inl hy2)
        · exact hy2
      · split
        · exact mem_insertName.mpr (Or.inl hy)
        · exact hy
    · apply foldl_preserves_mem
      · intro acc m y hy
        split
        · exact mem_insertName.mpr (Or.inl hy)
        · exact hy
      · rw [mem_foldl_insertName]
        exact Or.inr hn
  refine ⟨h1, ?_⟩
  by_cases hc : memResolveChanged s (memGetEventParticipants s) = true
  · simp only [memResolve, hc, if_true]
    exact h1
  · simp only [memResolve, hc, if_false]
    exact hn

/-- Witness for the amended C7 at the `straggler` state and name X. -/
theorem mem_resolution_monotone_witness :
    "X" ∈ straggler.participants ∧ "X" ∈ memGetEventParticipants straggler :=
  ⟨by decide, (mem_resolution_monotone straggler "X" (by decide)).1⟩

/-- Claim C8 counterexample: on a mismatched balance configuration (total
positive 5 against total negative 3) the settlement step logs its
warning but still emits the greedy transfer list — nothing aborts and no
error value exists in the computation. -/
theorem mismatch_not_aborted :
    totalReceive [("A", 5), ("B", -3)] = 5 ∧
    totalPay [("A", 5), ("B", -3)] = 3 ∧
    ¬ totalReceive [("A", 5), ("B", -3)] = totalPay [("A", 5), ("B", -3)] ∧
    settlementWarning [("A", 5), ("B", -3)] = true ∧
    settleBalances [("A", 5), ("B", -3)] = [⟨"B", "A", 3⟩] := by decide

/-- Claim C8 amended: a balance-conservation mismatch can never occur — for
every expense list the total of the positive balances equals the
absolute total of the negative balances exactly, so the advisory console
warning (the code's only reaction, fired when the difference exceeds 1)
never fires, and the engine unconditionally emits the greedy transfer
list; there is no abort or error path in the computation. -/
theorem mismatch_never_occurs (es : List Expense) :
    totalReceive (finalBalances es) = totalPay (finalBalances es) ∧
    settlementWarning (finalBalances es) = false ∧
    calculateSettlements es =
      if es = [] then [] else settleBalances (finalBalances es) := by
  have h := totals_balanced es
  refine ⟨h, ?_, rfl⟩
  unfold settlementWarning
  rw [h]
  simp

/-- Helper for C9: every name on the payer side of the greedy matching
has a strictly negative net balance. -/
theorem mem_fst_payersOf {es : List Expense} {x : String}
    (hx : x ∈ (payersOf (finalBalances es)).map Prod.fst) :
    balanceOf es x < 0 := by
  obtain ⟨q, hq, rfl⟩ := List.mem_map.mp hx
  have hq2 := (payersOf_perm (finalBalances es)).mem_iff.mp hq
  obtain ⟨r, hr, hqr⟩ := List.mem_map.mp hq2
  have hrneg : r.2 < 0 := by simpa using (List.mem_filter.mp hr).2
  have hrfb : r ∈ finalBalances es := (List.mem_filter.mp hr).1
  obtain ⟨m, _, hrm⟩ := List.mem_map.mp hrfb
  have h1 : q.1 = m := by
    rw [← hqr, ← hrm]
  have h2 : balanceOf es m = r.2 := by
    rw [← hrm]
  rw [h1, h2]
  exact hrneg

/-- Helper for C9: every name on the receiver side of the greedy matching
has a strictly positive net balance. -/
theorem mem_fst_receiversOf {es : List Expense} {x : String}
    (hx : x ∈ (receiversOf (finalBalances es)).map Prod.fst) :
    0 < balanceOf es x := by
  obtain ⟨q, hq, rfl⟩ := List.mem_map.mp hx
  have hq2 := (receiversOf_perm (finalBalances es)).mem_iff.mp hq
  have hqpos : 0 < q.2 := by simpa using (List.mem_filter.mp hq2).2
  have hqfb : q ∈ finalBalances es := (List.mem_filter.mp hq2).1
  obtain ⟨m, _, hqm⟩ := List.mem_map.mp hqfb
  have h1 : q.1 = m := by
    rw [← hqm]
  have h2 : balanceOf es m = q.2 := by
    rw [← hqm]
  rw [h1, h2]
  exact hqpos

/-- Claim C9: every emitted settlement instruction has a strictly positive
amount and distinct endpoints, and across the whole list no participant
appears both as a sender and as a receiver, because the debtor and
creditor partitions are disjoint. -/
theorem settlement_instructions_wellformed (es : List Expense) :
    ∀ t ∈ calculateSettlements es,
      0 < t.amount ∧ ¬ t.src = t.dst ∧
      ∀ u ∈ calculateSettlements es, ¬ t.src = u.dst := by
  intro t ht
  by_cases hne : es = []
  · subst hne
    exact absurd ht (List.not_mem_nil t)
  · simp only [calculateSettlements, if_neg hne] at ht
    unfold settleBalances at ht
    obtain ⟨hamt, hsrc, _⟩ := greedyAux_mem _ _ _
      (payersOf_pos (finalBalances es)) (receiversOf_pos (finalBalances es)) t ht
    have hsneg : balanceOf es t.src < 0 := mem_fst_payersOf hsrc
    refine ⟨hamt, ?_, ?_⟩
    · intro heq
      obtain ⟨_, _, hdst⟩ := greedyAux_mem _ _ _
        (payersOf_pos (finalBalances es)) (receiversOf_pos (finalBalances es)) t ht
      have hpos := mem_fst_receiversOf hdst
      rw [heq] at hsneg
      omega
    · intro u hu
      simp only [calculateSettlements, if_neg hne] at hu
      unfold settleBalances at hu
      obtain ⟨_, _, hud⟩ := greedyAux_mem _ _ _
        (payersOf_pos (finalBalances es)) (receiversOf_pos (finalBalances es)) u hu
      have hpos := mem_fst_receiversOf hud
      intro heq
      rw [heq] at hsneg
      omega

/-- Witness for C9 at the concrete ledger: the single instruction
B pays A 50. -/
theorem settlement_instructions_wellformed_witness :
    (⟨"B", "A", 50⟩ : Settlement) ∈ calculateSettlements exampleLedger ∧
    0 < (⟨"B", "A", 50⟩ : Settlement).amount :=
  ⟨by decide,
    (settlement_instructions_wellformed exampleLedger ⟨"B", "A", 50⟩ (by decide)).1⟩

/-- Claim C10: with non-empty payer names every split group reaching the
per-person division is non-empty (no division by zero) and every
balance-sheet lookup — the payer's and every split member's — hits a
name initialized in the participant universe. -/
theorem settlement_lookups_safe (es : List Expense)
    (_hpayer : ∀ e ∈ es, e.payerName ≠ "") :
    ∀ e ∈ es, ¬ splitGroupFor es e = [] ∧
      e.payerName ∈ collectParticipants es ∧
      ∀ x ∈ splitGroupFor es e, x ∈ collectParticipants es :=
  fun _ he =>
    ⟨splitGroupFor_ne_nil he, payer_mem_collectParticipants he,
      splitGroupFor_subset he⟩

/-- Witness for C10 at the concrete ledger. -/
theorem settlement_lookups_safe_witness :
    (∀ e ∈ exampleLedger, e.payerName ≠ "") ∧
    (⟨"A", "lunch", 100, ["A", "B"], false⟩ : Expense) ∈ exampleLedger ∧
    ¬ splitGroupFor exampleLedger ⟨"A", "lunch", 100, ["A", "B"], false⟩ = [] :=
  ⟨by decide, by decide,
    (settlement_lookups_safe exampleLedger (by decide)
      ⟨"A", "lunch", 100, ["A", "B"], false⟩ (by decide)).1⟩
